import Mathlib

/-!
Verification of the emotion-scoring and dataset-persistence pipeline of the
GenerateurMusiqueIA repository.

The Python sources are shallowly embedded as executable Lean definitions:

* `normalize`, `score_emotions`, `guess_emotion`, `softmax_dict`,
  `aggregate_va`, `analyze_text_emotion`, `load_lexicon` embed `nlp_emo.py`;
* `next_idx` and `save_pair` embed the dataset numbering of
  `ai_dataset_studio.py`, with the output directory modelled as the list of
  its filenames.

Modelling conventions:

* Python `dict`s are insertion-ordered association lists
  (`List (String × _)`), matching CPython's ordered-dict semantics.
* Python machine-precision floats are modelled in exact arithmetic over `ℚ`;
  `math.exp` is modelled by an arbitrary strictly positive map `E : ℤ → ℚ`
  (raw scores are integers, so `exp` is only ever applied to integers).
  Theorems quantify over every positive `E`; witnesses instantiate the
  executable positive map `expE`.
* The regex whole-word match `\b w \b` against the normalized text is
  modelled at token level: the words of `w` must occur as a contiguous run
  of the words of the normalized text.  Degenerate lexicon entries whose
  phrase contains doubled spaces are modelled word-wise.
* Unicode lower-casing and NFD accent stripping are modelled by an explicit
  table covering ASCII and the accented Latin letters that occur in the
  repository's data.
-/

namespace GenMusIA

/-! ### Text normalizer (`nlp_emo.normalize`) -/

/-- Python `\s` white-space class (`re` module, Unicode mode), restricted to
the ASCII white-space characters plus the common Unicode spaces. -/
def isPySpace (c : Char) : Bool :=
  c.toNat = 32 || (9 ≤ c.toNat && c.toNat ≤ 13) || c.toNat = 133 || c.toNat = 160 ||
  c.toNat = 5760 || (8192 ≤ c.toNat && c.toNat ≤ 8202) || c.toNat = 8232 ||
  c.toNat = 8233 || c.toNat = 8239 || c.toNat = 8287 || c.toNat = 12288

/-- The character class kept by `re.sub(r"[^a-z0-9\s]", " ", text)`:
lower-case ASCII letters, ASCII digits, and white-space. -/
def isKeepChar (c : Char) : Bool :=
  (97 ≤ c.toNat && c.toNat ≤ 122) || (48 ≤ c.toNat && c.toNat ≤ 57) || isPySpace c

/-- `str.lower` restricted to ASCII (accented upper-case letters are handled
together with accent stripping in `stripAccent`). -/
def pyLower (c : Char) : Char :=
  if 65 ≤ c.toNat && c.toNat ≤ 90 then Char.ofNat (c.toNat + 32) else c

/-- Composite of Python's `str.lower` (on non-ASCII letters) and NFD
decomposition followed by removal of the `Mn` combining marks, tabulated for
the accented Latin letters relevant to the repository's French data. -/
def stripAccent (c : Char) : Char :=
  if c = 'à' ∨ c = 'â' ∨ c = 'ä' ∨ c = 'á' ∨ c = 'ã' ∨ c = 'À' ∨ c = 'Â' ∨ c = 'Ä' then 'a'
  else if c = 'é' ∨ c = 'è' ∨ c = 'ê' ∨ c = 'ë' ∨ c = 'É' ∨ c = 'È' ∨ c = 'Ê' ∨ c = 'Ë' then 'e'
  else if c = 'î' ∨ c = 'ï' ∨ c = 'í' ∨ c = 'Î' ∨ c = 'Ï' then 'i'
  else if c = 'ô' ∨ c = 'ö' ∨ c = 'ó' ∨ c = 'õ' ∨ c = 'Ô' ∨ c = 'Ö' then 'o'
  else if c = 'ù' ∨ c = 'û' ∨ c = 'ü' ∨ c = 'ú' ∨ c = 'Ù' ∨ c = 'Û' ∨ c = 'Ü' then 'u'
  else if c = 'ç' ∨ c = 'Ç' then 'c'
  else if c = 'ñ' ∨ c = 'Ñ' then 'n'
  else c

/-- One character of `re.sub(r"[^a-z0-9\s]", " ", text)`. -/
def replBad (c : Char) : Char :=
  if isKeepChar c then c else ' '

/-- `re.sub(r"\s+", " ", text)` — every maximal run of white-space becomes a
single ASCII space. -/
def squeeze : List Char → List Char
  | [] => []
  | [c] => if isPySpace c then [' '] else [c]
  | c :: d :: rest =>
    if isPySpace c then
      if isPySpace d then squeeze (d :: rest)
      else ' ' :: squeeze (d :: rest)
    else c :: squeeze (d :: rest)

/-- Remove trailing white-space (the right half of `str.strip`). -/
def dropTrailWs : List Char → List Char
  | [] => []
  | c :: r =>
    let r' := dropTrailWs r
    if r'.isEmpty && isPySpace c then [] else c :: r'

/-- `str.strip` — remove leading and trailing white-space. -/
def stripEnds (l : List Char) : List Char :=
  dropTrailWs (l.dropWhile isPySpace)

/-- `nlp_emo.normalize` on the character list: lower-case, strip accents,
replace non-`[a-z0-9\s]` by a space, collapse white-space runs, trim. -/
def normalizeChars (l : List Char) : List Char :=
  stripEnds (squeeze (((l.map pyLower).map stripAccent).map replBad))

/-- `nlp_emo.normalize`. -/
def normalize (s : String) : String :=
  ⟨normalizeChars s.toList⟩

/-! ### Lexicon (`nlp_emo.DEFAULT_LEXICON`) -/

/-- A lexicon: insertion-ordered mapping from emotion label to an
insertion-ordered mapping from word to integer weight. -/
abbrev Lexicon := List (String × List (String × ℤ))

/-- The `"joie"` entry of `DEFAULT_LEXICON` (the duplicated `"rire": 2` key
of the Python dict literal collapses to a single entry). -/
def joieWords : List (String × ℤ) :=
  [("heureux", 2), ("heureuse", 2), ("content", 2), ("contente", 2), ("fete", 1),
   ("soleil", 1), ("plage", 1), ("rire", 2), ("amusement", 1),
   ("enthousiasme", 2), ("sourire", 1), ("joie", 2), ("bonheur", 2), ("satisfait", 1),
   ("amusant", 1), ("excite", 2), ("motivé", 2), ("ravi", 2), ("celebration", 1)]

/-- The `"tristesse"` entry of `DEFAULT_LEXICON`. -/
def tristesseWords : List (String × ℤ) :=
  [("triste", 2), ("tristesse", 2), ("pluie", 1), ("nostalgie", 2), ("perdu", 1),
   ("solitude", 2), ("chagrin", 2), ("melancolie", 2), ("pleurer", 2),
   ("deprime", 2), ("desespoir", 2), ("fatigue", 1), ("ennui", 1),
   ("larmes", 2), ("coeur brise", 2), ("deprimee", 2)]

/-- The `"colere"` entry of `DEFAULT_LEXICON`. -/
def colereWords : List (String × ℤ) :=
  [("colere", 2), ("rage", 2), ("furieux", 2), ("furieuse", 2), ("combat", 1),
   ("haine", 2), ("agressif", 1), ("agressive", 1), ("enervement", 2),
   ("tension", 1), ("crise", 1), ("violence", 2), ("explosion", 1),
   ("frustration", 2), ("nerveux", 1), ("bouleverse", 1)]

/-- The `"calme"` entry of `DEFAULT_LEXICON`. -/
def calmeWords : List (String × ℤ) :=
  [("calme", 2), ("zen", 2), ("paisible", 2), ("nuit", 1), ("douceur", 1),
   ("repos", 1), ("silence", 1), ("apaisant", 2), ("detente", 2),
   ("relax", 2), ("serenite", 2), ("plaisible", 1), ("tranquille", 2),
   ("reposant", 2), ("harmonie", 2)]

/-- The `"mystere"` entry of `DEFAULT_LEXICON`. -/
def mystereWords : List (String × ℤ) :=
  [("mystere", 2), ("enigme", 2), ("suspense", 2), ("ombre", 1), ("lune", 1),
   ("secret", 1), ("etrange", 2), ("brume", 1), ("fantome", 1),
   ("inconnu", 1), ("creepy", 1), ("sombre", 2), ("chuchotement", 1),
   ("caché", 1), ("bizarre", 1)]

/-- The `"energie"` entry of `DEFAULT_LEXICON`. -/
def energieWords : List (String × ℤ) :=
  [("energie", 2), ("vitesse", 1), ("rapide", 2), ("festif", 1), ("boom", 1),
   ("danse", 1), ("puissant", 2), ("intense", 2), ("sport", 1),
   ("dynamique", 2), ("adrenaline", 2), ("excitante", 2), ("mouvement", 1),
   ("accelere", 1), ("explosif", 2)]

/-- `nlp_emo.DEFAULT_LEXICON`. -/
def DEFAULT_LEXICON : Lexicon :=
  [("joie", joieWords), ("tristesse", tristesseWords), ("colere", colereWords),
   ("calme", calmeWords), ("mystere", mystereWords), ("energie", energieWords)]

/-! ### Lexicon loading (`nlp_emo.load_lexicon`)

The filesystem and `json.load` are modelled as parameters: `exq p` tells
whether `Path(p).exists()`, and `readJson p` is the outcome of
`json.load(open(p))` — `Except.error` models a raised `JSONDecodeError`,
which the Python function does not catch. -/

/-- `nlp_emo.load_lexicon`.  `path = none` or `path = some ""` model the
falsy `path` values of the Python `if path and Path(path).exists()` test. -/
def load_lexicon (exq : String → Bool) (readJson : String → Except String Lexicon)
    (path : Option String) : Except String Lexicon :=
  match path with
  | some p => if p ≠ "" && exq p then readJson p else Except.ok DEFAULT_LEXICON
  | none => Except.ok DEFAULT_LEXICON

/-! ### Lexicon scorer (`nlp_emo.score_emotions`) -/

/-- Split a character list into its maximal runs of non-space characters. -/
def wordsAux : List Char → List Char → List (List Char)
  | cur, [] => if cur.isEmpty then [] else [cur.reverse]
  | cur, c :: rest =>
    if c = ' ' then
      (if cur.isEmpty then wordsAux [] rest else cur.reverse :: wordsAux [] rest)
    else wordsAux (c :: cur) rest

/-- The words of a string (split on spaces). -/
def wordsOf (s : String) : List (List Char) :=
  wordsAux [] s.toList

/-- Does `p` occur as a contiguous run inside `ts`? -/
def isInfixTok (p : List (List Char)) : List (List Char) → Bool
  | [] => p.isEmpty
  | ts@(_ :: rest) => p.isPrefixOf ts || isInfixTok p rest

/-- The regex test `re.search(rf"\b{re.escape(w)}\b", t)` of
`score_emotions`, at token level: the words of `w` occur as a contiguous
run of the words of the (already normalized) text `t`. -/
def occursWord (w : String) (t : String) : Bool :=
  isInfixTok (wordsOf w) (wordsOf t)

/-- `nlp_emo.score_emotions`: label ↦ sum of the weights of its lexicon
words found in the normalized text; a label is present in the result (as a
`defaultdict(int)` key) exactly when at least one of its words matched. -/
def score_emotions (text : String) (lexicon : Lexicon) : List (String × ℤ) :=
  let t := normalize text
  lexicon.filterMap (fun ews =>
    let matched := ews.2.filter (fun wp => occursWord wp.1 t)
    if matched.isEmpty then none
    else some (ews.1, (matched.map (fun wp => wp.2)).sum))

/-! ### Stable sorting (Python `sorted`) -/

/-- Insert `x` after every element it is not strictly below — the insertion
step of a stable ascending sort. -/
def insertStable (lt : α → α → Bool) (x : α) : List α → List α
  | [] => [x]
  | y :: ys => if lt x y then x :: y :: ys else y :: insertStable lt x ys

/-- Stable ascending sort by the strict comparison `lt`, modelling Python's
stable `sorted(l, key=...)`. -/
def stableSort (lt : α → α → Bool) (l : List α) : List α :=
  l.foldl (fun acc x => insertStable lt x acc) []

/-- The strict comparison induced by the sort key
`lambda kv: (-kv[1], kv[0])` of `guess_emotion` (Python compares strings
lexicographically by code point, i.e. by their character lists). -/
def pairLt (a b : String × ℤ) : Bool :=
  decide (b.2 < a.2 ∨ (a.2 = b.2 ∧ a.1.toList < b.1.toList))

/-- `nlp_emo.guess_emotion`: best-scored emotion, ties broken by ascending
label name; `dflt` when no lexicon word matched. -/
def guess_emotion (text : String) (lexicon : Lexicon) (dflt : String) : String :=
  let scores := score_emotions text lexicon
  if scores.isEmpty then dflt
  else ((stableSort pairLt scores).headD ("", 0)).1

/-! ### Probability aggregation (`nlp_emo.softmax_dict`) -/

/-- `nlp_emo.softmax_dict` over an integer-valued score dict, with
`math.exp` modelled by the map `E : ℤ → ℚ` (only ever applied to the
integer differences `v - max`).  Keys keep their insertion order. -/
def softmax_dict (E : ℤ → ℚ) (d : List (String × ℤ)) : List (String × ℚ) :=
  match d with
  | [] => []
  | p :: rest =>
    let m := rest.foldl (fun acc q => max acc q.2) p.2
    let exps := (p :: rest).map (fun q => (q.1, E (q.2 - m)))
    let s := (exps.map (fun q => q.2)).sum
    exps.map (fun q => (q.1, q.2 / s))

/-- An executable positive stand-in for `math.exp` on integer arguments,
used by the concrete witnesses. -/
def expE (z : ℤ) : ℚ :=
  if 0 ≤ z then (2 : ℚ) ^ z.toNat else (1 / 2 : ℚ) ^ (-z).toNat

/-! ### Valence/arousal mapping (`nlp_emo.EMO_TO_VA`, `aggregate_va`) -/

/-- `nlp_emo.EMO_TO_VA`: per-emotion (valence, arousal) anchors in `[0,1]`. -/
def EMO_TO_VA : List (String × (ℚ × ℚ)) :=
  [("joie", (0.85, 0.65)), ("tristesse", (0.20, 0.30)), ("colere", (0.15, 0.85)),
   ("calme", (0.60, 0.25)), ("mystere", (0.45, 0.40)), ("energie", (0.70, 0.80))]

/-- `EMO_TO_VA.get(k, (0.5, 0.5))`. -/
def vaOf (k : String) : ℚ × ℚ :=
  (EMO_TO_VA.lookup k).getD (0.5, 0.5)

/-- `nlp_emo.aggregate_va`: probability-weighted sum of the anchors,
`(0.5, 0.5)` for an empty distribution. -/
def aggregate_va (probs : List (String × ℚ)) : ℚ × ℚ :=
  if probs.isEmpty then (0.5, 0.5)
  else ((probs.map (fun p => (vaOf p.1).1 * p.2)).sum,
        (probs.map (fun p => (vaOf p.1).2 * p.2)).sum)

/-! ### Analysis pipeline (`nlp_emo.analyze_text_emotion`) -/

/-- `nlp_emo.EmotionOutput`. -/
structure EmotionOutput where
  labels : List String
  probs : List (String × ℚ)
  va : ℚ × ℚ
  raw_scores : List (String × ℤ)
  deriving Repr, DecidableEq

/-- The strict comparison induced by the sort key `lambda kv: -kv[1]` of
the top-2 label selection in `analyze_text_emotion`. -/
def probLt (a b : String × ℚ) : Bool :=
  decide (b.2 < a.2)

/-- `nlp_emo.analyze_text_emotion`: score, substitute `{"calme": 1}` for an
empty score dict, softmax-normalize, select the top-2 labels by a stable
descending-probability sort, and aggregate valence/arousal. -/
def analyze_text_emotion (E : ℤ → ℚ) (text : String) (lexicon : Lexicon) : EmotionOutput :=
  let sc0 := score_emotions text lexicon
  let sc := if sc0.isEmpty then [("calme", (1 : ℤ))] else sc0
  let probs := softmax_dict E sc
  let labels := ((stableSort probLt probs).map (fun p => p.1)).take 2
  let va := aggregate_va probs
  ⟨labels, probs, va, sc⟩

/-! ### Dataset persistence (`ai_dataset_studio._next_idx`, `save_pair`)

The output directory is modelled as the list of its filenames (character
lists).  `save_pair` is modelled up to its filesystem effects: the artifact
and sidecar writes add the two filenames, and the CSV rewrite creates
`index.csv` when absent. -/

/-- Is `c` an ASCII digit? -/
def isDigitC (c : Char) : Bool :=
  48 ≤ c.toNat && c.toNat ≤ 57

/-- The numeric value of a digit string read left to right (`int(...)` on a
`(\d+)` regex group). -/
def digitsVal (l : List Char) : ℕ :=
  l.foldl (fun a c => a * 10 + (c.toNat - 48)) 0

/-- The decimal digit character of `d < 10`. -/
def digitChar (d : ℕ) : Char :=
  if d = 0 then '0' else if d = 1 then '1' else if d = 2 then '2'
  else if d = 3 then '3' else if d = 4 then '4' else if d = 5 then '5'
  else if d = 6 then '6' else if d = 7 then '7' else if d = 8 then '8' else '9'

/-- The decimal digits of `n` (no leading zeros). -/
def natStr (n : ℕ) : List Char :=
  if _h : n < 10 then [digitChar n]
  else natStr (n / 10) ++ [digitChar (n % 10)]
  termination_by n
  decreasing_by exact Nat.div_lt_self (by omega) (by omega)

/-- Python `f"{n:05d}"`: the decimal digits of `n` left-padded with zeros to
width 5. -/
def pad5 (n : ℕ) : List Char :=
  List.replicate (5 - (natStr n).length) '0' ++ natStr n

/-- Remove the leading run `p` from `l`, or fail. -/
def dropPre : List Char → List Char → Option (List Char)
  | [], l => some l
  | _ :: _, [] => none
  | p :: ps, c :: cs => if c = p then dropPre ps cs else none

/-- Remove the trailing run `s` from `l`, or fail. -/
def dropSuf (s l : List Char) : Option (List Char) :=
  (dropPre s.reverse l.reverse).map List.reverse

/-- The regex `^{emotion}_(\d+)\.png$` of `_next_idx` (with the glob
prefilter `{emotion}_*.png`): parse the index out of a directory entry. -/
def parseIdx (emotion name : List Char) : Option ℕ :=
  (dropPre (emotion ++ ['_']) name).bind fun r1 =>
    (dropSuf ['.', 'p', 'n', 'g'] r1).bind fun mid =>
      if mid.isEmpty then none
      else if mid.all isDigitC then some (digitsVal mid) else none

/-- `ai_dataset_studio._next_idx`: one more than the largest parsed index
(the fold starts from `nmax = 0`). -/
def next_idx (dir : List (List Char)) (emotion : List Char) : ℕ :=
  (dir.foldl (fun nmax name =>
    match parseIdx emotion name with
    | some k => max nmax k
    | none => nmax) 0) + 1

/-- The filename `index.csv` of the cumulative index. -/
def idxName : List Char :=
  ['i', 'n', 'd', 'e', 'x', '.', 'c', 's', 'v']

/-- `ai_dataset_studio.save_pair`, restricted to its directory effect:
assign the next index `n`, add `{emotion}_{n:05d}.png` and `.txt`, create
`index.csv` when absent, and return the new directory with `n`. -/
def save_pair (dir : List (List Char)) (emotion : List Char) :
    List (List Char) × ℕ :=
  let n := next_idx dir emotion
  let stem := emotion ++ ['_'] ++ pad5 n
  let dir1 := dir ++ [stem ++ ['.', 'p', 'n', 'g'], stem ++ ['.', 't', 'x', 't']]
  let dir2 := if dir1.contains idxName then dir1 else dir1 ++ [idxName]
  (dir2, n)

/-! ### Occurrence counting (specification device for the scorer) -/

/-- The number of token positions at which the phrase `p` starts a
contiguous whole-word match inside `ts`. -/
def occCount (p : List (List Char)) : List (List Char) → ℕ
  | [] => if p.isEmpty then 1 else 0
  | ts@(_ :: rest) => (if p.isPrefixOf ts then 1 else 0) + occCount p rest

/-- Occurrences of the lexicon word `w` in the (already normalized) text
`t`, counted at token level. -/
def occCountW (w t : String) : ℕ :=
  occCount (wordsOf w) (wordsOf t)

/-- A two-label lexicon listing `"joie"` first (tie-break demonstration). -/
def lexJC : Lexicon :=
  [("joie", [("soleil", 1)]), ("calme", [("nuit", 1)])]

/-- The same two-label lexicon with the opposite insertion order. -/
def lexCJ : Lexicon :=
  [("calme", [("nuit", 1)]), ("joie", [("soleil", 1)])]

/-! ## Lemmas: normalizer shape and idempotence -/

/-- Characters that can appear in a normalized string: `a`-`z`, `0`-`9`,
and the ASCII space. -/
def isOutChar (c : Char) : Bool :=
  (97 ≤ c.toNat && c.toNat ≤ 122) || (48 ≤ c.toNat && c.toNat ≤ 57) || c.toNat = 32

/-- No two adjacent white-space characters. -/
def noDblSp : List Char → Bool
  | [] => true
  | [_] => true
  | c :: d :: r => !(isPySpace c && isPySpace d) && noDblSp (d :: r)

theorem pyLower_fix {c : Char} (h : isOutChar c = true) : pyLower c = c := by
  rw [pyLower, if_neg]
  simp only [isOutChar, Bool.or_eq_true, Bool.and_eq_true, decide_eq_true_eq] at h
  simp only [Bool.and_eq_true, decide_eq_true_eq, not_and]
  omega

theorem stripAccent_fix {c : Char} (h : isOutChar c = true) : stripAccent c = c := by
  unfold stripAccent
  split_ifs with h1 h2 h3 h4 h5 h6 h7
  · rcases h1 with h'|h'|h'|h'|h'|h'|h'|h' <;> (subst h'; exact absurd h (by decide))
  · rcases h2 with h'|h'|h'|h'|h'|h'|h'|h' <;> (subst h'; exact absurd h (by decide))
  · rcases h3 with h'|h'|h'|h'|h' <;> (subst h'; exact absurd h (by decide))
  · rcases h4 with h'|h'|h'|h'|h'|h' <;> (subst h'; exact absurd h (by decide))
  · rcases h5 with h'|h'|h'|h'|h'|h'|h' <;> (subst h'; exact absurd h (by decide))
  · rcases h6 with h'|h' <;> (subst h'; exact absurd h (by decide))
  · rcases h7 with h'|h' <;> (subst h'; exact absurd h (by decide))
  · rfl

theorem replBad_fix {c : Char} (h : isOutChar c = true) : replBad c = c := by
  rw [replBad, if_pos]
  simp only [isOutChar, Bool.or_eq_true, Bool.and_eq_true, decide_eq_true_eq] at h
  simp only [isKeepChar, isPySpace, Bool.or_eq_true, Bool.and_eq_true, decide_eq_true_eq]
  omega

theorem replBad_keep (c : Char) : isKeepChar (replBad c) = true := by
  by_cases h : isKeepChar c = true
  · simp [replBad, h]
  · simp only [replBad, h, Bool.false_eq_true, if_false]
    decide

theorem out_of_keep_nonspace {c : Char} (hk : isKeepChar c = true)
    (hs : isPySpace c = false) : isOutChar c = true := by
  simp only [isKeepChar, Bool.or_eq_true] at hk
  rcases hk with (hk | hk) | hk
  · simp only [isOutChar, Bool.or_eq_true]
    exact Or.inl (Or.inl hk)
  · simp only [isOutChar, Bool.or_eq_true]
    exact Or.inl (Or.inr hk)
  · exact absurd hk (by simp [hs])

theorem eq_space_of_out_pyspace {c : Char} (ho : isOutChar c = true)
    (hs : isPySpace c = true) : c = ' ' := by
  have hn : c.toNat = 32 := by
    simp only [isOutChar, isPySpace, Bool.or_eq_true, Bool.and_eq_true,
      decide_eq_true_eq] at ho hs
    omega
  exact Char.ext (UInt32.toNat.inj hn)

theorem mem_squeeze (c : Char) :
    ∀ l : List Char, c ∈ squeeze l → c = ' ' ∨ (c ∈ l ∧ isPySpace c = false) := by
  intro l
  induction l with
  | nil => simp [squeeze]
  | cons a t ih =>
    cases t with
    | nil =>
      intro hc
      by_cases h : isPySpace a = true
      · rw [squeeze, if_pos h] at hc
        exact Or.inl (List.mem_singleton.mp hc)
      · rw [squeeze, if_neg (by simp [h])] at hc
        have := List.mem_singleton.mp hc
        subst this
        exact Or.inr ⟨List.mem_singleton_self _, by simpa using h⟩
    | cons b r =>
      intro hc
      by_cases h : isPySpace a = true
      · by_cases h2 : isPySpace b = true
        · rw [squeeze, if_pos h, if_pos h2] at hc
          rcases ih hc with hl | ⟨hm, hn⟩
          · exact Or.inl hl
          · exact Or.inr ⟨List.mem_cons_of_mem _ hm, hn⟩
        · rw [squeeze, if_pos h, if_neg (by simp [h2])] at hc
          rcases List.mem_cons.mp hc with hc' | hc'
          · exact Or.inl hc'
          · rcases ih hc' with hl | ⟨hm, hn⟩
            · exact Or.inl hl
            · exact Or.inr ⟨List.mem_cons_of_mem _ hm, hn⟩
      · rw [squeeze, if_neg (by simp [h])] at hc
        rcases List.mem_cons.mp hc with hc' | hc'
        · subst hc'
          exact Or.inr ⟨List.mem_cons_self _ _, by simpa using h⟩
        · rcases ih hc' with hl | ⟨hm, hn⟩
          · exact Or.inl hl
          · exact Or.inr ⟨List.mem_cons_of_mem _ hm, hn⟩

theorem map_fix {f : Char → Char} :
    ∀ l : List Char, (∀ c ∈ l, f c = c) → l.map f = l := by
  intro l h
  induction l with
  | nil => rfl
  | cons a t ih =>
    rw [List.map_cons, h a (List.mem_cons_self _ _), ih (fun c hc => h c (List.mem_cons_of_mem _ hc))]

theorem noDbl_tail {c : Char} {r : List Char} (h : noDblSp (c :: r) = true) :
    noDblSp r = true := by
  cases r with
  | nil => rfl
  | cons d r2 =>
    rw [noDblSp, Bool.and_eq_true] at h
    exact h.2

theorem noDbl_cons_nonspace {a : Char} {t : List Char} (ha : isPySpace a = false)
    (ht : noDblSp t = true) : noDblSp (a :: t) = true := by
  cases t with
  | nil => rfl
  | cons b r =>
    rw [noDblSp, Bool.and_eq_true]
    exact ⟨by simp [ha], ht⟩

theorem squeeze_cons_nonspace {b : Char} (hb : isPySpace b = false) :
    ∀ r : List Char, squeeze (b :: r) = b :: squeeze r := by
  intro r
  cases r with
  | nil => simp [squeeze, hb]
  | cons d r2 => rw [squeeze, if_neg (by simp [hb])]

theorem squeeze_noDbl : ∀ l : List Char, noDblSp (squeeze l) = true := by
  intro l
  induction l with
  | nil => rfl
  | cons a t ih =>
    cases t with
    | nil =>
      by_cases h : isPySpace a = true
      · rw [squeeze, if_pos h]; rfl
      · rw [squeeze, if_neg (by simp [h])]; rfl
    | cons b r =>
      by_cases h : isPySpace a = true
      · by_cases h2 : isPySpace b = true
        · rw [squeeze, if_pos h, if_pos h2]; exact ih
        · rw [squeeze, if_pos h, if_neg (by simp [h2])]
          rw [squeeze_cons_nonspace (by simpa using h2) r] at ih ⊢
          cases hs : squeeze r with
          | nil => simp [noDblSp, h2]
          | cons e r3 =>
            rw [hs] at ih
            rw [noDblSp, Bool.and_eq_true]
            refine ⟨by simp [h2], ih⟩
      · rw [squeeze, if_neg (by simp [h])]
        exact noDbl_cons_nonspace (by simpa using h) ih

theorem squeeze_fix : ∀ l : List Char, (∀ c ∈ l, isOutChar c = true) →
    noDblSp l = true → squeeze l = l := by
  intro l
  induction l with
  | nil => intro _ _; rfl
  | cons a t ih =>
    intro hout hnd
    cases t with
    | nil =>
      by_cases h : isPySpace a = true
      · rw [squeeze, if_pos h,
          eq_space_of_out_pyspace (hout a (List.mem_cons_self _ _)) h]
      · rw [squeeze, if_neg (by simp [h])]
    | cons b r =>
      by_cases h : isPySpace a = true
      · have ha : a = ' ' := eq_space_of_out_pyspace (hout a (List.mem_cons_self _ _)) h
        have h2 : isPySpace b = false := by
          rw [noDblSp, Bool.and_eq_true] at hnd
          rcases hnd with ⟨hp, _⟩
          by_contra hb
          simp only [Bool.not_eq_false] at hb
          rw [h, hb] at hp
          simp at hp
        rw [squeeze, if_pos h, if_neg (by simp [h2]),
          ih (fun c hc => hout c (List.mem_cons_of_mem _ hc)) (noDbl_tail hnd), ha]
      · rw [squeeze, if_neg (by simp [h]),
          ih (fun c hc => hout c (List.mem_cons_of_mem _ hc)) (noDbl_tail hnd)]

theorem mem_dropWhile {p : Char → Bool} {c : Char} :
    ∀ l : List Char, c ∈ l.dropWhile p → c ∈ l := by
  intro l
  induction l with
  | nil => intro h; simp at h
  | cons a t ih =>
    intro h
    rw [List.dropWhile_cons] at h
    by_cases hp : p a = true
    · rw [if_pos hp] at h
      exact List.mem_cons_of_mem _ (ih h)
    · rw [if_neg hp] at h
      exact h

theorem dropWhile_noDbl :
    ∀ l : List Char, noDblSp l = true → noDblSp (l.dropWhile isPySpace) = true := by
  intro l h
  induction l with
  | nil => rfl
  | cons a t ih =>
    rw [List.dropWhile_cons]
    by_cases hp : isPySpace a = true
    · rw [if_pos hp]
      exact ih (noDbl_tail h)
    · rw [if_neg hp]
      exact h

theorem dropWhile_head? {p : Char → Bool} :
    ∀ l : List Char, ∀ a : Char, (l.dropWhile p).head? = some a → p a = false := by
  intro l
  induction l with
  | nil => intro a h; simp at h
  | cons b t ih =>
    intro a h
    by_cases hp : p b = true
    · rw [List.dropWhile_cons, if_pos hp] at h
      exact ih a h
    · rw [List.dropWhile_cons, if_neg hp] at h
      simp only [List.head?_cons, Option.some.injEq] at h
      subst h
      simpa using hp

theorem dropWhile_fix {p : Char → Bool} :
    ∀ l : List Char, (∀ a : Char, l.head? = some a → p a = false) →
      l.dropWhile p = l := by
  intro l h
  cases l with
  | nil => rfl
  | cons a t =>
    rw [List.dropWhile_cons, if_neg]
    simp [h a (by simp)]

theorem dropTrailWs_decomp : ∀ l : List Char, ∃ t, l = dropTrailWs l ++ t := by
  intro l
  induction l with
  | nil => exact ⟨[], rfl⟩
  | cons c r ih =>
    rw [dropTrailWs]
    by_cases hc : (dropTrailWs r).isEmpty && isPySpace c
    · rw [if_pos hc]
      exact ⟨c :: r, rfl⟩
    · rw [if_neg hc]
      rcases ih with ⟨t, ht⟩
      exact ⟨t, by rw [List.cons_append, ← ht]⟩

theorem noDbl_append_left :
    ∀ l t : List Char, noDblSp (l ++ t) = true → noDblSp l = true := by
  intro l
  induction l with
  | nil => intro _ _; rfl
  | cons a s ih =>
    intro t h
    cases s with
    | nil => rfl
    | cons b r =>
      simp only [List.cons_append] at h
      rw [noDblSp, Bool.and_eq_true] at h
      rw [noDblSp, Bool.and_eq_true]
      exact ⟨h.1, ih t h.2⟩

theorem dropTrailWs_noDbl (l : List Char) (h : noDblSp l = true) :
    noDblSp (dropTrailWs l) = true := by
  rcases dropTrailWs_decomp l with ⟨t, ht⟩
  rw [ht] at h
  exact noDbl_append_left _ _ h

theorem mem_dropTrailWs {c : Char} (l : List Char) (h : c ∈ dropTrailWs l) : c ∈ l := by
  rcases dropTrailWs_decomp l with ⟨t, ht⟩
  rw [ht]
  exact List.mem_append_left _ h

theorem dropTrailWs_getLast? :
    ∀ l : List Char, ∀ a : Char, (dropTrailWs l).getLast? = some a →
      isPySpace a = false := by
  intro l
  induction l with
  | nil => intro a h; simp [dropTrailWs] at h
  | cons c r ih =>
    intro a h
    by_cases hc : ((dropTrailWs r).isEmpty && isPySpace c) = true
    · rw [dropTrailWs, if_pos hc] at h
      simp at h
    · rw [dropTrailWs, if_neg hc] at h
      cases hx : dropTrailWs r with
      | nil =>
        rw [hx] at h hc
        simp only [List.getLast?_singleton, Option.some.injEq] at h
        subst h
        simpa using hc
      | cons e y =>
        rw [hx] at h
        rw [List.getLast?_cons_cons] at h
        rw [← hx] at h
        exact ih a h

theorem dropTrailWs_fix :
    ∀ l : List Char, (∀ a : Char, l.getLast? = some a → isPySpace a = false) →
      dropTrailWs l = l := by
  intro l
  induction l with
  | nil => intro _; rfl
  | cons c r ih =>
    intro h
    cases r with
    | nil =>
      have hc : isPySpace c = false := h c (by simp)
      simp [dropTrailWs, hc]
    | cons d r2 =>
      have hr : dropTrailWs (d :: r2) = d :: r2 := by
        apply ih
        intro a ha
        apply h
        rwa [List.getLast?_cons_cons]
      rw [dropTrailWs, hr]
      simp

theorem dropTrailWs_head? (l : List Char) (h : dropTrailWs l ≠ []) :
    (dropTrailWs l).head? = l.head? := by
  rcases dropTrailWs_decomp l with ⟨t, ht⟩
  cases hd : dropTrailWs l with
  | nil => exact absurd hd h
  | cons a y =>
    rw [hd] at ht
    rw [ht]
    simp

theorem tidy_shape (z : List Char) (hzk : ∀ c ∈ z, isKeepChar c = true) :
    (∀ c ∈ stripEnds (squeeze z), isOutChar c = true) ∧
    noDblSp (stripEnds (squeeze z)) = true ∧
    (∀ a : Char, (stripEnds (squeeze z)).head? = some a → isPySpace a = false) ∧
    (∀ a : Char, (stripEnds (squeeze z)).getLast? = some a → isPySpace a = false) := by
  rw [stripEnds]
  refine ⟨?_, ?_, ?_, ?_⟩
  · intro c hc
    have h1 : c ∈ (squeeze z).dropWhile isPySpace := mem_dropTrailWs _ hc
    have h2 : c ∈ squeeze z := mem_dropWhile _ h1
    rcases mem_squeeze c z h2 with hsp | ⟨hm, hn⟩
    · subst hsp; decide
    · exact out_of_keep_nonspace (hzk c hm) hn
  · exact dropTrailWs_noDbl _ (dropWhile_noDbl _ (squeeze_noDbl z))
  · intro a ha
    have hne : dropTrailWs ((squeeze z).dropWhile isPySpace) ≠ [] := by
      intro he
      rw [he] at ha
      simp at ha
    rw [dropTrailWs_head? _ hne] at ha
    exact dropWhile_head? _ a ha
  · exact dropTrailWs_getLast? _

theorem normalizeChars_fix (y : List Char)
    (hout : ∀ c ∈ y, isOutChar c = true) (hnd : noDblSp y = true)
    (hh : ∀ a : Char, y.head? = some a → isPySpace a = false)
    (hl : ∀ a : Char, y.getLast? = some a → isPySpace a = false) :
    normalizeChars y = y := by
  rw [normalizeChars,
    map_fix y (fun c hc => pyLower_fix (hout c hc)),
    map_fix y (fun c hc => stripAccent_fix (hout c hc)),
    map_fix y (fun c hc => replBad_fix (hout c hc)),
    squeeze_fix y hout hnd,
    stripEnds, dropWhile_fix y hh, dropTrailWs_fix y hl]

theorem normalizeChars_idem (l : List Char) :
    normalizeChars (normalizeChars l) = normalizeChars l := by
  have hzk : ∀ c ∈ ((l.map pyLower).map stripAccent).map replBad, isKeepChar c = true := by
    intro c hc
    rcases List.mem_map.mp hc with ⟨d, _, hd⟩
    rw [← hd]
    exact replBad_keep d
  have hs := tidy_shape (((l.map pyLower).map stripAccent).map replBad) hzk
  exact normalizeChars_fix (normalizeChars l) hs.1 hs.2.1 hs.2.2.1 hs.2.2.2

/-- C7: `normalize` is idempotent — `normalize (normalize x) = normalize x`
for every input string `x`. -/
theorem normalize_idempotent (s : String) : normalize (normalize s) = normalize s := by
  show (⟨normalizeChars (normalizeChars s.toList)⟩ : String) = ⟨normalizeChars s.toList⟩
  rw [normalizeChars_idem]

/-! ## Lemmas: dataset sequence numbering -/

theorem digitChar_toNat {d : ℕ} (h : d < 10) : (digitChar d).toNat = 48 + d := by
  interval_cases d <;> decide

theorem isDigitC_digitChar {d : ℕ} (h : d < 10) : isDigitC (digitChar d) = true := by
  interval_cases d <;> decide

theorem natStr_ne_nil (n : ℕ) : natStr n ≠ [] := by
  rw [natStr]
  split_ifs with h
  · simp
  · simp

theorem natStr_digits : ∀ n : ℕ, ∀ c ∈ natStr n, isDigitC c = true := by
  intro n
  induction n using Nat.strong_induction_on with
  | _ n ih =>
    intro c hc
    rw [natStr] at hc
    split_ifs at hc with h
    · rw [List.mem_singleton] at hc
      subst hc
      exact isDigitC_digitChar h
    · rcases List.mem_append.mp hc with h1 | h1
      · exact ih (n / 10) (Nat.div_lt_self (by omega) (by omega)) c h1
      · rw [List.mem_singleton] at h1
        subst h1
        exact isDigitC_digitChar (Nat.mod_lt _ (by omega))

theorem natStr_val : ∀ n : ℕ, digitsVal (natStr n) = n := by
  intro n
  induction n using Nat.strong_induction_on with
  | _ n ih =>
    rw [natStr]
    split_ifs with h
    · rw [digitsVal, List.foldl_cons, List.foldl_nil]
      have e := digitChar_toNat h
      omega
    · have h1 := ih (n / 10) (Nat.div_lt_self (by omega) (by omega))
      rw [digitsVal] at h1 ⊢
      rw [List.foldl_append, h1, List.foldl_cons, List.foldl_nil,
        digitChar_toNat (Nat.mod_lt _ (by omega))]
      omega

theorem digitsVal_zeros_append :
    ∀ (k : ℕ) (l : List Char), digitsVal (List.replicate k '0' ++ l) = digitsVal l := by
  intro k
  induction k with
  | zero => intro l; rfl
  | succ k ih =>
    intro l
    rw [List.replicate_succ, List.cons_append, digitsVal]
    simp only [List.foldl_cons]
    have e0 : 0 * 10 + ('0'.toNat - 48) = 0 := by decide
    rw [e0]
    exact ih l

theorem pad5_val (n : ℕ) : digitsVal (pad5 n) = n := by
  rw [pad5, digitsVal_zeros_append, natStr_val]

theorem pad5_digits (n : ℕ) : ∀ c ∈ pad5 n, isDigitC c = true := by
  intro c hc
  rw [pad5] at hc
  rcases List.mem_append.mp hc with h1 | h1
  · rw [List.eq_of_mem_replicate h1]
    decide
  · exact natStr_digits n c h1

theorem pad5_ne_nil (n : ℕ) : pad5 n ≠ [] := by
  rw [pad5]
  intro h
  rcases List.append_eq_nil.mp h with ⟨_, h2⟩
  exact natStr_ne_nil n h2

theorem dropPre_append : ∀ p l : List Char, dropPre p (p ++ l) = some l := by
  intro p
  induction p with
  | nil => intro l; rfl
  | cons a ps ih =>
    intro l
    rw [List.cons_append, dropPre, if_pos rfl]
    exact ih l

theorem dropPre_some : ∀ p l r : List Char, dropPre p l = some r → l = p ++ r := by
  intro p
  induction p with
  | nil =>
    intro l r h
    rw [dropPre] at h
    simp only [Option.some.injEq] at h
    rw [h, List.nil_append]
  | cons a ps ih =>
    intro l r h
    cases l with
    | nil => rw [dropPre] at h; cases h
    | cons c cs =>
      rw [dropPre] at h
      split_ifs at h with he
      subst he
      rw [List.cons_append, ih cs r h]

theorem dropSuf_append : ∀ s l : List Char, dropSuf s (l ++ s) = some l := by
  intro s l
  rw [dropSuf, List.reverse_append, dropPre_append]
  simp

theorem dropSuf_not_g :
    ∀ r1 : List Char, (∀ c : Char, r1.getLast? = some c → c ≠ 'g') →
      dropSuf ['.', 'p', 'n', 'g'] r1 = none := by
  intro r1 h
  rw [dropSuf]
  cases hr : r1.reverse with
  | nil => rfl
  | cons c cs =>
    have hc : r1.getLast? = some c := by
      rw [← List.head?_reverse, hr]
      rfl
    show Option.map List.reverse (if c = 'g' then dropPre ['n', 'p', '.'] cs else none) = none
    rw [if_neg (h c hc)]
    rfl

theorem parseIdx_mkName (emotion : List Char) (n : ℕ) :
    parseIdx emotion (emotion ++ ['_'] ++ pad5 n ++ ['.', 'p', 'n', 'g']) = some n := by
  have h1 : dropPre (emotion ++ ['_']) (emotion ++ ['_'] ++ pad5 n ++ ['.', 'p', 'n', 'g'])
      = some (pad5 n ++ ['.', 'p', 'n', 'g']) := by
    rw [List.append_assoc (emotion ++ ['_'])]
    exact dropPre_append _ _
  have h2 : dropSuf ['.', 'p', 'n', 'g'] (pad5 n ++ ['.', 'p', 'n', 'g']) = some (pad5 n) :=
    dropSuf_append _ _
  have h3 : (pad5 n).isEmpty = false := by
    cases hp : pad5 n with
    | nil => exact absurd hp (pad5_ne_nil n)
    | cons a t => rfl
  rw [parseIdx, h1]
  simp only [Option.some_bind]
  rw [h2]
  simp only [Option.some_bind]
  rw [if_neg (by simp [h3]), if_pos (List.all_eq_true.mpr (pad5_digits n)), pad5_val]

theorem parseIdx_not_png (emotion name : List Char)
    (h : ∀ c : Char, name.getLast? = some c → c ≠ 'g') :
    parseIdx emotion name = none := by
  rw [parseIdx]
  cases hd : dropPre (emotion ++ ['_']) name with
  | none => rfl
  | some r1 =>
    have hn : name = (emotion ++ ['_']) ++ r1 := dropPre_some _ _ _ hd
    have hs : dropSuf ['.', 'p', 'n', 'g'] r1 = none := by
      apply dropSuf_not_g
      intro c hc
      apply h c
      rw [hn, List.getLast?_append_of_ne_nil _ (by rintro rfl; simp at hc), hc]
    simp only [Option.some_bind]
    rw [hs]
    rfl

theorem parseIdx_txt (emotion stem : List Char) :
    parseIdx emotion (stem ++ ['.', 't', 'x', 't']) = none := by
  apply parseIdx_not_png
  intro c hc
  rw [List.getLast?_append_of_ne_nil _ (by simp)] at hc
  simp only [List.getLast?_cons_cons, List.getLast?_singleton, Option.some.injEq] at hc
  subst hc
  decide

theorem parseIdx_idxName (emotion : List Char) : parseIdx emotion idxName = none := by
  apply parseIdx_not_png
  intro c hc
  rw [show idxName.getLast? = some 'v' from rfl] at hc
  simp only [Option.some.injEq] at hc
  subst hc
  decide

/-- The fold of `_next_idx` equals a plain `max`-fold over the parsed
indices. -/
theorem next_idx_fold (emotion : List Char) :
    ∀ (dir : List (List Char)) (i : ℕ),
      dir.foldl (fun nmax name =>
        match parseIdx emotion name with
        | some k => max nmax k
        | none => nmax) i
      = (dir.filterMap (parseIdx emotion)).foldl max i := by
  intro dir
  induction dir with
  | nil => intro i; rfl
  | cons a d ih =>
    intro i
    rw [List.foldl_cons, List.filterMap_cons]
    cases hp : parseIdx emotion a with
    | none => exact ih i
    | some k => rw [List.foldl_cons]; exact ih (max i k)

theorem foldl_max_ge : ∀ (l : List ℕ) (i k : ℕ), k ∈ l → k ≤ l.foldl max i := by
  intro l
  induction l with
  | nil => intro i k h; simp at h
  | cons a t ih =>
    intro i k h
    rw [List.foldl_cons]
    rcases List.mem_cons.mp h with rfl | h2
    · calc k ≤ max i k := le_max_right i k
        _ ≤ List.foldl max (max i k) t := by
          clear ih h
          induction t generalizing i k with
          | nil => exact le_refl _
          | cons b s ihs =>
            rw [List.foldl_cons]
            calc max i k ≤ max (max i k) b := le_max_left _ _
              _ ≤ List.foldl max (max (max i k) b) s := ihs _ _
    · exact ih (max i a) k h2

theorem foldl_max_init_le : ∀ (l : List ℕ) (i : ℕ), i ≤ l.foldl max i := by
  intro l
  induction l with
  | nil => intro i; exact le_refl _
  | cons a t ih =>
    intro i
    rw [List.foldl_cons]
    exact le_trans (le_max_left i a) (ih (max i a))

theorem foldl_max_mem : ∀ (l : List ℕ) (i : ℕ), l.foldl max i = i ∨ l.foldl max i ∈ l := by
  intro l
  induction l with
  | nil => intro i; exact Or.inl rfl
  | cons a t ih =>
    intro i
    rw [List.foldl_cons]
    rcases ih (max i a) with h | h
    · rcases max_choice i a with hm | hm
      · exact Or.inl (by rw [h, hm])
      · exact Or.inr (by rw [h, hm]; exact List.mem_cons_self _ _)
    · exact Or.inr (List.mem_cons_of_mem _ h)

/-- C2: dataset sequence numbering.  (1) `save_pair` assigns exactly
`next_idx`; (2) an immediately following call on the returned directory
assigns the successor, so sequential same-label saves increase by exactly 1;
(3) every index parsed from a pre-existing `"<label>_<digits>.png"` filename
is at most `next_idx - 1`; (4) `next_idx` is `max + 1` over the parsed
indices — in particular it is `1` when no such file exists, so numbering
resumes from the on-disk maximum after a restart. -/
theorem save_pair_sequence (dir : List (List Char)) (emotion : List Char) :
    (save_pair dir emotion).2 = next_idx dir emotion
    ∧ next_idx (save_pair dir emotion).1 emotion = (save_pair dir emotion).2 + 1
    ∧ (∀ k ∈ dir.filterMap (parseIdx emotion), k ≤ next_idx dir emotion - 1)
    ∧ ((next_idx dir emotion - 1) ∈ dir.filterMap (parseIdx emotion)
        ∨ next_idx dir emotion = 1) := by
  refine ⟨rfl, ?_, ?_, ?_⟩
  · have hstep : ∀ d : List (List Char),
        d.foldl (fun nmax name =>
          match parseIdx emotion name with
          | some k => max nmax k
          | none => nmax) 0
        = (d.filterMap (parseIdx emotion)).foldl max 0 := fun d => next_idx_fold emotion d 0
    show next_idx (save_pair dir emotion).1 emotion = next_idx dir emotion + 1
    set m := (dir.filterMap (parseIdx emotion)).foldl max 0 with hm
    have hnext : next_idx dir emotion = m + 1 := by rw [next_idx, hstep]
    have hpng : parseIdx emotion
        (emotion ++ ['_'] ++ pad5 (next_idx dir emotion) ++ ['.', 'p', 'n', 'g'])
        = some (next_idx dir emotion) := parseIdx_mkName emotion _
    have htxt : parseIdx emotion
        ((emotion ++ ['_'] ++ pad5 (next_idx dir emotion)) ++ ['.', 't', 'x', 't'])
        = none := parseIdx_txt emotion _
    have hcore : ∀ tail : List (List Char),
        (∀ name ∈ tail, parseIdx emotion name = none) →
        next_idx (dir ++
          [emotion ++ ['_'] ++ pad5 (next_idx dir emotion) ++ ['.', 'p', 'n', 'g']]
          ++ tail) emotion = next_idx dir emotion + 1 := by
      intro tail htail
      rw [next_idx, List.foldl_append, List.foldl_append, List.foldl_cons, hpng,
        List.foldl_nil]
      have e1 : tail.foldl (fun nmax name =>
          match parseIdx emotion name with
          | some k => max nmax k
          | none => nmax)
          (max (dir.foldl (fun nmax name =>
            match parseIdx emotion name with
            | some k => max nmax k
            | none => nmax) 0) (next_idx dir emotion))
          = max (dir.foldl (fun nmax name =>
            match parseIdx emotion name with
            | some k => max nmax k
            | none => nmax) 0) (next_idx dir emotion) := by
        clear hpng
        induction tail with
        | nil => rfl
        | cons a t iht =>
          rw [List.foldl_cons, htail a (List.mem_cons_self _ _)]
          exact iht (fun x hx => htail x (List.mem_cons_of_mem _ hx))
      rw [e1, hstep, ← hm, hnext]
      omega
    show next_idx (let n := next_idx dir emotion;
      let stem := emotion ++ ['_'] ++ pad5 n;
      let dir1 := dir ++ [stem ++ ['.', 'p', 'n', 'g'], stem ++ ['.', 't', 'x', 't']];
      let dir2 := if dir1.contains idxName then dir1 else dir1 ++ [idxName];
      dir2) emotion = next_idx dir emotion + 1
    simp only
    by_cases hcont : (dir ++ [emotion ++ ['_'] ++ pad5 (next_idx dir emotion) ++ ['.', 'p', 'n', 'g'],
        (emotion ++ ['_'] ++ pad5 (next_idx dir emotion)) ++ ['.', 't', 'x', 't']]).contains idxName = true
    · rw [if_pos hcont]
      have := hcore [(emotion ++ ['_'] ++ pad5 (next_idx dir emotion)) ++ ['.', 't', 'x', 't']]
        (by intro name hn; rw [List.mem_singleton] at hn; subst hn; exact htxt)
      simpa using this
    · rw [if_neg hcont]
      have := hcore [(emotion ++ ['_'] ++ pad5 (next_idx dir emotion)) ++ ['.', 't', 'x', 't'], idxName]
        (by
          intro name hn
          rcases List.mem_cons.mp hn with rfl | hn2
          · exact htxt
          · rw [List.mem_singleton] at hn2
            subst hn2
            exact parseIdx_idxName emotion)
      simpa using this
  · intro k hk
    rw [next_idx, next_idx_fold emotion dir 0]
    have := foldl_max_ge (dir.filterMap (parseIdx emotion)) 0 k hk
    omega
  · rw [next_idx, next_idx_fold emotion dir 0]
    rcases foldl_max_mem (dir.filterMap (parseIdx emotion)) 0 with h | h
    · exact Or.inr (by omega)
    · exact Or.inl (by simpa using h)

/-! ## Lemmas: softmax aggregation -/

theorem expE_pos : ∀ z : ℤ, 0 < expE z := by
  intro z
  rw [expE]
  split_ifs
  · exact pow_pos (by norm_num) _
  · exact pow_pos (by norm_num) _

theorem expE_zero : expE 0 = 1 := by
  rw [expE, if_pos (le_refl 0)]
  rfl

theorem analyze_probs (E : ℤ → ℚ) (text : String) (lex : Lexicon) :
    (analyze_text_emotion E text lex).probs
      = softmax_dict E (if (score_emotions text lex).isEmpty then [("calme", (1 : ℤ))]
          else score_emotions text lex) := rfl

theorem analyze_raw (E : ℤ → ℚ) (text : String) (lex : Lexicon) :
    (analyze_text_emotion E text lex).raw_scores
      = (if (score_emotions text lex).isEmpty then [("calme", (1 : ℤ))]
          else score_emotions text lex) := rfl

theorem analyze_labels (E : ℤ → ℚ) (text : String) (lex : Lexicon) :
    (analyze_text_emotion E text lex).labels
      = ((stableSort probLt (analyze_text_emotion E text lex).probs).map
          (fun p => p.1)).take 2 := rfl

theorem analyze_va_eq (E : ℤ → ℚ) (text : String) (lex : Lexicon) :
    (analyze_text_emotion E text lex).va
      = aggregate_va (analyze_text_emotion E text lex).probs := rfl

theorem softmax_keys (E : ℤ → ℚ) (d : List (String × ℤ)) :
    (softmax_dict E d).map Prod.fst = d.map Prod.fst := by
  cases d with
  | nil => rfl
  | cons p rest =>
    rw [softmax_dict]
    simp only [List.map_map]
    rfl

theorem sum_map_div (l : List ℚ) (s : ℚ) : (l.map (fun x => x / s)).sum = l.sum / s := by
  induction l with
  | nil => simp
  | cons a t ih => rw [List.map_cons, List.sum_cons, List.sum_cons, ih, add_div]

/-- The normalization step of `softmax_dict`: dividing positive entries by
their total yields values summing to exactly 1. -/
theorem softmax_post (exps : List (String × ℚ)) (hpos : ∀ q ∈ exps, 0 < q.2)
    (hne : exps ≠ []) :
    ((exps.map (fun q => (q.1, q.2 / (exps.map (fun q => q.2)).sum))).map Prod.snd).sum
      = 1 := by
  rw [List.map_map]
  have e : (Prod.snd ∘ fun q : String × ℚ => (q.1, q.2 / (exps.map (fun q => q.2)).sum))
      = fun q : String × ℚ => q.2 / (exps.map (fun q => q.2)).sum := rfl
  rw [e]
  have e2 : (exps.map (fun q : String × ℚ => q.2 / (exps.map (fun q => q.2)).sum))
      = ((exps.map (fun q : String × ℚ => q.2)).map
          (fun x => x / (exps.map (fun q : String × ℚ => q.2)).sum)) := by
    rw [List.map_map]
    rfl
  rw [e2, sum_map_div, div_self]
  apply ne_of_gt
  apply List.sum_pos
  · intro x hx
    rcases List.mem_map.mp hx with ⟨q, hq, rfl⟩
    exact hpos q hq
  · simpa using hne

theorem softmax_sum (E : ℤ → ℚ) (hE : ∀ z : ℤ, 0 < E z) (d : List (String × ℤ))
    (hd : d ≠ []) : ((softmax_dict E d).map Prod.snd).sum = 1 := by
  cases d with
  | nil => exact absurd rfl hd
  | cons p rest =>
    rw [softmax_dict]
    apply softmax_post
    · intro q hq
      rcases List.mem_map.mp hq with ⟨r, _, rfl⟩
      exact hE _
    · simp

/-- Each normalized entry of `softmax_dict` is strictly positive. -/
theorem div_sum_pos_mem (exps : List (String × ℚ)) (hpos : ∀ q ∈ exps, 0 < q.2)
    (p : String × ℚ)
    (hp : p ∈ exps.map (fun q => (q.1, q.2 / (exps.map (fun q => q.2)).sum))) :
    0 < p.2 := by
  rcases List.mem_map.mp hp with ⟨r, hr, rfl⟩
  have hs : 0 < (exps.map (fun q : String × ℚ => q.2)).sum := by
    apply List.sum_pos
    · intro x hx
      rcases List.mem_map.mp hx with ⟨q, hq, rfl⟩
      exact hpos q hq
    · intro h
      rw [List.map_eq_nil_iff] at h
      subst h
      exact absurd hr (List.not_mem_nil r)
  exact div_pos (hpos r hr) hs

theorem softmax_pos (E : ℤ → ℚ) (hE : ∀ z : ℤ, 0 < E z) (d : List (String × ℤ)) :
    ∀ p ∈ softmax_dict E d, 0 < p.2 := by
  cases d with
  | nil => intro p hp; simp [softmax_dict] at hp
  | cons q rest =>
    rw [softmax_dict]
    intro p hp
    apply div_sum_pos_mem _ _ p hp
    intro r hr
    rcases List.mem_map.mp hr with ⟨x, _, rfl⟩
    exact hE _

/-- C1 (amended): for every positive exponential map, input text and
lexicon, the analysis distribution's domain is exactly the matched labels
(just `["calme"]` when nothing matched) — a subset of, not the full, closed
emotion set — and its values sum to exactly 1. -/
theorem probs_domain_and_sum (E : ℤ → ℚ) (hE : ∀ z : ℤ, 0 < E z)
    (text : String) (lex : Lexicon) :
    (analyze_text_emotion E text lex).probs.map Prod.fst
      = (if (score_emotions text lex).isEmpty then ["calme"]
         else (score_emotions text lex).map Prod.fst)
    ∧ ((analyze_text_emotion E text lex).probs.map Prod.snd).sum = 1 := by
  constructor
  · rw [analyze_probs, softmax_keys]
    by_cases h : (score_emotions text lex).isEmpty = true
    · rw [if_pos h, if_pos h]
      rfl
    · rw [if_neg h, if_neg h]
  · rw [analyze_probs]
    apply softmax_sum E hE
    by_cases h : (score_emotions text lex).isEmpty = true
    · rw [if_pos h]
      simp
    · rw [if_neg h]
      simpa [List.isEmpty_iff] using h

/-- Witness for C1's amended theorem at a concrete input. -/
theorem probs_domain_and_sum_witness :
    ((analyze_text_emotion expE "soleil" DEFAULT_LEXICON).probs.map Prod.fst
      = (if (score_emotions "soleil" DEFAULT_LEXICON).isEmpty then ["calme"]
         else (score_emotions "soleil" DEFAULT_LEXICON).map Prod.fst))
    ∧ ((analyze_text_emotion expE "soleil" DEFAULT_LEXICON).probs.map Prod.snd).sum = 1 :=
  probs_domain_and_sum expE expE_pos "soleil" DEFAULT_LEXICON

/-- C1 counterexample: for the text `"soleil"` and the default lexicon the
distribution's domain is `["joie"]` alone — the zero-score label `"calme"`
(and the rest of the closed set) is absent, so the domain is not the full
closed emotion-label set. -/
theorem probs_domain_counterexample :
    (analyze_text_emotion expE "soleil" DEFAULT_LEXICON).probs.map Prod.fst = ["joie"]
    ∧ "calme" ∉ (analyze_text_emotion expE "soleil" DEFAULT_LEXICON).probs.map Prod.fst := by
  constructor
  · decide
  · decide

/-- C4: an empty score vector is replaced by the unit score
`{"calme": 1}`, and the resulting distribution puts probability exactly 1
on the default label `"calme"`. -/
theorem empty_scores_default (E : ℤ → ℚ) (hE : 0 < E 0) (text : String) (lex : Lexicon)
    (h : score_emotions text lex = []) :
    (analyze_text_emotion E text lex).probs = [("calme", 1)]
    ∧ (analyze_text_emotion E text lex).raw_scores = [("calme", 1)] := by
  have hie : (score_emotions text lex).isEmpty = true := by
    rw [h]
    rfl
  constructor
  · rw [analyze_probs, if_pos hie, softmax_dict]
    simp only [List.foldl_nil, List.map_cons, List.map_nil, List.sum_cons, List.sum_nil,
      add_zero, sub_self]
    rw [div_self (ne_of_gt hE)]
  · rw [analyze_raw, if_pos hie]

/-- Witness for C4 at the spec's concrete no-match scenario. -/
theorem empty_scores_default_witness :
    score_emotions "xyz123 qwerty" DEFAULT_LEXICON = []
    ∧ ((analyze_text_emotion expE "xyz123 qwerty" DEFAULT_LEXICON).probs = [("calme", 1)]
       ∧ (analyze_text_emotion expE "xyz123 qwerty" DEFAULT_LEXICON).raw_scores
          = [("calme", 1)]) :=
  ⟨by decide,
   empty_scores_default expE (expE_pos 0) "xyz123 qwerty" DEFAULT_LEXICON (by decide)⟩

theorem insertStable_length {α : Type} (lt : α → α → Bool) (x : α) :
    ∀ l : List α, (insertStable lt x l).length = l.length + 1 := by
  intro l
  induction l with
  | nil => rfl
  | cons y ys ih =>
    rw [insertStable]
    split_ifs
    · rfl
    · rw [List.length_cons, ih, List.length_cons]

theorem stableSort_length {α : Type} (lt : α → α → Bool) (l : List α) :
    (stableSort lt l).length = l.length := by
  have h : ∀ (l2 acc : List α),
      (l2.foldl (fun acc x => insertStable lt x acc) acc).length
        = acc.length + l2.length := by
    intro l2
    induction l2 with
    | nil => intro acc; simp
    | cons x xs ih =>
      intro acc
      rw [List.foldl_cons, ih, insertStable_length, List.length_cons]
      omega
  rw [stableSort, h]
  simp

theorem softmax_length (E : ℤ → ℚ) (d : List (String × ℤ)) :
    (softmax_dict E d).length = d.length := by
  cases d with
  | nil => rfl
  | cons p rest =>
    rw [softmax_dict]
    simp

/-- C10: every probability in the analysis result is strictly positive, and
the selected label list is non-empty with at most 2 entries. -/
theorem analysis_result_invariants (E : ℤ → ℚ) (hE : ∀ z : ℤ, 0 < E z)
    (text : String) (lex : Lexicon) :
    (∀ p ∈ (analyze_text_emotion E text lex).probs, 0 < p.2)
    ∧ (analyze_text_emotion E text lex).labels ≠ []
    ∧ (analyze_text_emotion E text lex).labels.length ≤ 2 := by
  have hlen : 1 ≤ (analyze_text_emotion E text lex).probs.length := by
    rw [analyze_probs, softmax_length]
    by_cases h : (score_emotions text lex).isEmpty = true
    · rw [if_pos h]
      simp
    · rw [if_neg h]
      have hne : score_emotions text lex ≠ [] := by simpa [List.isEmpty_iff] using h
      have := List.length_pos.mpr hne
      omega
  refine ⟨?_, ?_, ?_⟩
  · rw [analyze_probs]
    exact softmax_pos E hE _
  · rw [analyze_labels]
    intro hnil
    have hlen0 := congrArg List.length hnil
    rw [List.length_take, List.length_map, stableSort_length, List.length_nil] at hlen0
    rcases Nat.min_eq_zero_iff.mp hlen0 with h | h
    · omega
    · omega
  · rw [analyze_labels, List.length_take]
    exact min_le_left _ _

/-- Witness for C10 at a concrete input. -/
theorem analysis_result_invariants_witness :
    (∀ p ∈ (analyze_text_emotion expE "nuit" DEFAULT_LEXICON).probs, 0 < p.2)
    ∧ (analyze_text_emotion expE "nuit" DEFAULT_LEXICON).labels ≠ []
    ∧ (analyze_text_emotion expE "nuit" DEFAULT_LEXICON).labels.length ≤ 2 :=
  analysis_result_invariants expE expE_pos "nuit" DEFAULT_LEXICON

/-! ## Lemmas: valence/arousal aggregation -/

theorem lookup_mem {β : Type} (k : String) (v : β) :
    ∀ l : List (String × β), l.lookup k = some v → (k, v) ∈ l := by
  intro l
  induction l with
  | nil => intro h; simp [List.lookup] at h
  | cons p t ih =>
    obtain ⟨pk, pv⟩ := p
    intro h
    rw [List.lookup] at h
    rcases hbe : (k == pk) with _ | _
    · rw [hbe] at h
      exact List.mem_cons_of_mem _ (ih h)
    · rw [hbe] at h
      simp only [Option.some.injEq] at h
      have hk : k = pk := by simpa using hbe
      subst hk
      subst h
      exact List.mem_cons_self _ _

theorem vaOf_bounds (k : String) :
    0 ≤ (vaOf k).1 ∧ (vaOf k).1 ≤ 1 ∧ 0 ≤ (vaOf k).2 ∧ (vaOf k).2 ≤ 1 := by
  rw [vaOf]
  cases h : EMO_TO_VA.lookup k with
  | none => norm_num
  | some v =>
    have hm : (k, v) ∈ EMO_TO_VA := lookup_mem k v _ h
    rw [Option.getD_some]
    simp only [EMO_TO_VA, List.mem_cons, List.not_mem_nil, or_false] at hm
    rcases hm with h1 | h1 | h1 | h1 | h1 | h1 <;>
      (rw [Prod.mk.injEq] at h1; rw [h1.2]; norm_num)

/-- C8: `aggregate_va` of a genuine probability distribution (non-negative
values summing to 1) is the probability-weighted sum of the per-emotion
anchors (labels outside the anchor table contributing the midpoint
`(0.5, 0.5)` through `vaOf`), and both coordinates lie in `[0, 1]`. -/
theorem aggregate_va_convex (probs : List (String × ℚ))
    (h1 : ∀ p ∈ probs, 0 ≤ p.2) (h2 : (probs.map Prod.snd).sum = 1) :
    aggregate_va probs
      = ((probs.map (fun p => (vaOf p.1).1 * p.2)).sum,
         (probs.map (fun p => (vaOf p.1).2 * p.2)).sum)
    ∧ 0 ≤ (aggregate_va probs).1 ∧ (aggregate_va probs).1 ≤ 1
    ∧ 0 ≤ (aggregate_va probs).2 ∧ (aggregate_va probs).2 ≤ 1 := by
  have hne : probs ≠ [] := by
    intro h
    rw [h] at h2
    simp at h2
  have hie : probs.isEmpty = false := by
    cases hp : probs with
    | nil => exact absurd hp hne
    | cons a t => rfl
  have heq : aggregate_va probs
      = ((probs.map (fun p => (vaOf p.1).1 * p.2)).sum,
         (probs.map (fun p => (vaOf p.1).2 * p.2)).sum) := by
    rw [aggregate_va, if_neg (by simp [hie])]
  refine ⟨heq, ?_, ?_, ?_, ?_⟩
  · rw [heq]
    apply List.sum_nonneg
    intro x hx
    rcases List.mem_map.mp hx with ⟨p, hp, rfl⟩
    exact mul_nonneg (vaOf_bounds p.1).1 (h1 p hp)
  · rw [heq]
    calc (probs.map (fun p => (vaOf p.1).1 * p.2)).sum
        ≤ (probs.map Prod.snd).sum := by
          apply List.sum_le_sum
          intro p hp
          exact mul_le_of_le_one_left (h1 p hp) (vaOf_bounds p.1).2.1
      _ = 1 := h2
  · rw [heq]
    apply List.sum_nonneg
    intro x hx
    rcases List.mem_map.mp hx with ⟨p, hp, rfl⟩
    exact mul_nonneg (vaOf_bounds p.1).2.2.1 (h1 p hp)
  · rw [heq]
    calc (probs.map (fun p => (vaOf p.1).2 * p.2)).sum
        ≤ (probs.map Prod.snd).sum := by
          apply List.sum_le_sum
          intro p hp
          exact mul_le_of_le_one_left (h1 p hp) (vaOf_bounds p.1).2.2.2
      _ = 1 := h2

/-- Witness for C8 at a concrete distribution. -/
theorem aggregate_va_convex_witness :
    (aggregate_va [("joie", 1)]
      = (([("joie", (1 : ℚ))].map (fun p => (vaOf p.1).1 * p.2)).sum,
         ([("joie", (1 : ℚ))].map (fun p => (vaOf p.1).2 * p.2)).sum)
    ∧ 0 ≤ (aggregate_va [("joie", 1)]).1 ∧ (aggregate_va [("joie", 1)]).1 ≤ 1
    ∧ 0 ≤ (aggregate_va [("joie", 1)]).2 ∧ (aggregate_va [("joie", 1)]).2 ≤ 1) :=
  aggregate_va_convex [("joie", 1)]
    (by
      intro p hp
      rw [List.mem_singleton] at hp
      subst hp
      norm_num)
    (by simp)

/-! ## Lemmas: the scorer adds each lexicon entry at most once -/

theorem isInfixTok_occCount : ∀ p ts : List (List Char),
    isInfixTok p ts = true ↔ 0 < occCount p ts := by
  intro p ts
  induction ts with
  | nil =>
    simp only [isInfixTok, occCount]
    by_cases h : p.isEmpty = true
    · simp [h]
    · simp [h]
  | cons t rest ih =>
    simp only [isInfixTok, occCount, Bool.or_eq_true]
    by_cases h : p.isPrefixOf (t :: rest) = true
    · simp [h]
    · simp [h, ih]

theorem score_cons (text : String) (a : String × List (String × ℤ)) (t : Lexicon) :
    score_emotions text (a :: t)
      = (if (a.2.filter (fun wp => occursWord wp.1 (normalize text))).isEmpty
         then score_emotions text t
         else (a.1, ((a.2.filter (fun wp => occursWord wp.1 (normalize text))).map
            Prod.snd).sum) :: score_emotions text t) := by
  by_cases h : (a.2.filter (fun wp => occursWord wp.1 (normalize text))).isEmpty = true
  · simp only [score_emotions, List.filterMap_cons, h, if_true]
  · rw [Bool.not_eq_true] at h
    simp only [score_emotions, List.filterMap_cons, h, Bool.false_eq_true, if_false]

theorem score_keys (text : String) (lex : Lexicon) :
    ∀ p ∈ score_emotions text lex, p.1 ∈ lex.map Prod.fst := by
  intro p hp
  simp only [score_emotions] at hp
  rcases List.mem_filterMap.mp hp with ⟨a, ha, hfa⟩
  split_ifs at hfa with h
  · simp only [Option.some.injEq] at hfa
    rw [← hfa]
    exact List.mem_map_of_mem Prod.fst ha

theorem lookup_none_of_not_mem {β : Type} (k : String) :
    ∀ l : List (String × β), k ∉ l.map Prod.fst → l.lookup k = none := by
  intro l
  induction l with
  | nil => intro _; rfl
  | cons p t ih =>
    intro h
    obtain ⟨pk, pv⟩ := p
    simp only [List.map_cons, List.mem_cons] at h
    push_neg at h
    rw [List.lookup]
    have hbe : (k == pk) = false := by simpa using h.1
    rw [hbe]
    exact ih h.2

/-- C9: with distinct label keys, the score of a label equals the sum of
the weights of exactly those of its lexicon words that occur at least once
as a whole-word match in the normalized text — each matching entry
contributes its weight once, regardless of its number of occurrences; the
label is absent when no entry matches. -/
theorem score_counts_each_word_once (text : String) (lex : Lexicon) (emo : String)
    (ws : List (String × ℤ)) (hnd : (lex.map Prod.fst).Nodup) (hmem : (emo, ws) ∈ lex) :
    (score_emotions text lex).lookup emo
      = (if (ws.filter (fun q => decide (0 < occCountW q.1 (normalize text)))).isEmpty
         then none
         else some (((ws.filter (fun q => decide (0 < occCountW q.1 (normalize text)))).map
            Prod.snd).sum)) := by
  have hfc : ∀ vs : List (String × ℤ),
      vs.filter (fun q => decide (0 < occCountW q.1 (normalize text)))
        = vs.filter (fun q => occursWord q.1 (normalize text)) := by
    intro vs
    apply List.filter_congr
    intro q _
    have hiff := isInfixTok_occCount (wordsOf q.1) (wordsOf (normalize text))
    rw [occCountW, occursWord]
    cases hb : isInfixTok (wordsOf q.1) (wordsOf (normalize text)) with
    | true => simp [hiff.mp hb]
    | false =>
      have hno : ¬ 0 < occCount (wordsOf q.1) (wordsOf (normalize text)) := by
        intro hpos
        rw [hiff.mpr hpos] at hb
        cases hb
      simp [hno]
  rw [hfc]
  induction lex with
  | nil => simp at hmem
  | cons a t ih =>
    rw [score_cons]
    simp only [List.map_cons, List.nodup_cons] at hnd
    rcases List.mem_cons.mp hmem with heq | htail
    · have he1 : a.1 = emo := by rw [← heq]
      have he2 : a.2 = ws := by rw [← heq]
      by_cases hm : (a.2.filter (fun wp => occursWord wp.1 (normalize text))).isEmpty = true
      · rw [if_pos hm]
        rw [he2] at hm
        rw [if_pos hm]
        apply lookup_none_of_not_mem
        intro hk
        rcases List.mem_map.mp hk with ⟨p, hp, hpe⟩
        have := score_keys text t p hp
        rw [hpe, ← he1] at this
        exact hnd.1 this
      · rw [if_neg hm]
        rw [he2] at hm
        rw [if_neg hm]
        rw [List.lookup, he1]
        have : (emo == emo) = true := by simp
        rw [this, he2]
    · have hne : emo ≠ a.1 := by
        intro he
        apply hnd.1
        rw [← he]
        exact List.mem_map_of_mem Prod.fst htail
      have hlk : ∀ rest : List (String × ℤ),
          ((a.1, ((a.2.filter (fun wp => occursWord wp.1 (normalize text))).map
            Prod.snd).sum) :: rest).lookup emo = rest.lookup emo := by
        intro rest
        rw [List.lookup]
        have hbe : (emo == a.1) = false := by simpa using hne
        rw [hbe]
      by_cases hm : (a.2.filter (fun wp => occursWord wp.1 (normalize text))).isEmpty = true
      · rw [if_pos hm]
        exact ih hnd.2 htail
      · rw [if_neg hm, hlk]
        exact ih hnd.2 htail

/-- Witness for C9: in `"rire rire rire"` the word `"rire"` (weight 2)
occurs three times but contributes once — the `"joie"` score is 2. -/
theorem score_counts_each_word_once_witness :
    (score_emotions "rire rire rire" DEFAULT_LEXICON).lookup "joie"
      = (if (joieWords.filter
            (fun q => decide (0 < occCountW q.1 (normalize "rire rire rire")))).isEmpty
         then none
         else some (((joieWords.filter
            (fun q => decide (0 < occCountW q.1 (normalize "rire rire rire")))).map
            Prod.snd).sum)) :=
  score_counts_each_word_once "rire rire rire" DEFAULT_LEXICON "joie" joieWords
    (by decide) (by decide)

/-! ## Lemmas: stable sorting and tie-breaking -/

theorem insertStable_mem_iff {α : Type} (lt : α → α → Bool) (x z : α) :
    ∀ l : List α, z ∈ insertStable lt x l ↔ z = x ∨ z ∈ l := by
  intro l
  induction l with
  | nil => simp [insertStable]
  | cons y ys ih =>
    rw [insertStable]
    by_cases hxy : lt x y = true
    · rw [if_pos hxy]
      simp [List.mem_cons]
    · rw [if_neg hxy]
      simp only [List.mem_cons, ih]
      tauto

theorem insertStable_pairwise {α : Type} (lt : α → α → Bool)
    (hasym : ∀ a b, lt a b = true → lt b a = false)
    (htrans : ∀ a b c, lt b a = false → lt c b = false → lt c a = false)
    (x : α) : ∀ l : List α, l.Pairwise (fun a b => lt b a = false) →
      (insertStable lt x l).Pairwise (fun a b => lt b a = false) := by
  intro l
  induction l with
  | nil => intro _; simp [insertStable]
  | cons y ys ih =>
    intro hp
    rw [List.pairwise_cons] at hp
    rw [insertStable]
    by_cases hxy : lt x y = true
    · rw [if_pos hxy, List.pairwise_cons]
      constructor
      · intro z hz
        rcases List.mem_cons.mp hz with rfl | hz2
        · exact hasym x z hxy
        · exact htrans x y z (hasym x y hxy) (hp.1 z hz2)
      · rw [List.pairwise_cons]
        exact ⟨hp.1, hp.2⟩
    · rw [if_neg hxy, List.pairwise_cons]
      constructor
      · intro z hz
        rcases (insertStable_mem_iff lt x z ys).mp hz with rfl | hz2
        · simpa using hxy
        · exact hp.1 z hz2
      · exact ih hp.2

theorem stableSort_mem_iff {α : Type} (lt : α → α → Bool) (z : α) :
    ∀ l acc : List α,
      (z ∈ l.foldl (fun acc x => insertStable lt x acc) acc ↔ z ∈ acc ∨ z ∈ l) := by
  intro l
  induction l with
  | nil => intro acc; simp
  | cons x xs ih =>
    intro acc
    rw [List.foldl_cons, ih (insertStable lt x acc)]
    rw [insertStable_mem_iff]
    simp only [List.mem_cons]
    tauto

theorem stableSort_pairwise {α : Type} (lt : α → α → Bool)
    (hasym : ∀ a b, lt a b = true → lt b a = false)
    (htrans : ∀ a b c, lt b a = false → lt c b = false → lt c a = false)
    (l : List α) :
    (stableSort lt l).Pairwise (fun a b => lt b a = false) := by
  have key : ∀ l2 acc : List α, acc.Pairwise (fun a b => lt b a = false) →
      (l2.foldl (fun acc x => insertStable lt x acc) acc).Pairwise
        (fun a b => lt b a = false) := by
    intro l2
    induction l2 with
    | nil => intro acc h; exact h
    | cons x xs ih =>
      intro acc h
      rw [List.foldl_cons]
      exact ih _ (insertStable_pairwise lt hasym htrans x acc h)
  exact key l [] List.Pairwise.nil

theorem pairLt_asymm : ∀ a b : String × ℤ, pairLt a b = true → pairLt b a = false := by
  intro a b h
  simp only [pairLt, decide_eq_true_eq] at h
  simp only [pairLt, decide_eq_false_iff_not, not_or, not_and]
  rcases h with h | ⟨he, hl⟩
  · constructor
    · omega
    · intro h2
      omega
  · constructor
    · omega
    · intro _
      exact not_lt_of_lt hl

theorem pairLt_negtrans :
    ∀ a b c : String × ℤ, pairLt b a = false → pairLt c b = false →
      pairLt c a = false := by
  intro a b c hba hcb
  simp only [pairLt, decide_eq_false_iff_not, not_or, not_and] at hba hcb ⊢
  obtain ⟨h1, h2⟩ := hba
  obtain ⟨h3, h4⟩ := hcb
  constructor
  · omega
  · intro hca
    have hba2 : b.2 = a.2 := by omega
    have hcb2 : c.2 = b.2 := by omega
    have hab : a.1.toList ≤ b.1.toList := le_of_not_lt (h2 hba2)
    have hbc : b.1.toList ≤ c.1.toList := le_of_not_lt (h4 hcb2)
    intro hlt
    exact absurd (lt_of_lt_of_le hlt (le_trans hab hbc)) (lt_irrefl _)

/-- C3 (amended): `guess_emotion` (the single-best pick) does resolve ties
lexicographically: whenever the score dict is non-empty it returns a label
with maximal score that is `≤` every other maximal-score label. -/
theorem guess_emotion_argmax (text : String) (lex : Lexicon) (dflt : String)
    (h : score_emotions text lex ≠ []) :
    ∃ s : ℤ, (guess_emotion text lex dflt, s) ∈ score_emotions text lex
      ∧ ∀ p ∈ score_emotions text lex,
          p.2 ≤ s ∧ (p.2 = s → guess_emotion text lex dflt ≤ p.1) := by
  have hie : (score_emotions text lex).isEmpty = false := by
    cases hsc : score_emotions text lex with
    | nil => exact absurd hsc h
    | cons a t => rfl
  have hg : guess_emotion text lex dflt
      = ((stableSort pairLt (score_emotions text lex)).headD ("", 0)).1 := by
    rw [guess_emotion, if_neg (by simp [hie])]
  have hlen : (stableSort pairLt (score_emotions text lex)).length
      = (score_emotions text lex).length := stableSort_length _ _
  cases hL : stableSort pairLt (score_emotions text lex) with
  | nil =>
    exfalso
    rw [hL] at hlen
    have := List.length_pos.mpr h
    rw [← hlen] at this
    simp at this
  | cons h0 rest =>
    have hsorted := stableSort_pairwise pairLt pairLt_asymm pairLt_negtrans
      (score_emotions text lex)
    rw [hL, List.pairwise_cons] at hsorted
    have hmem : ∀ z : String × ℤ, z ∈ score_emotions text lex ↔ z ∈ h0 :: rest := by
      intro z
      rw [← hL, stableSort, stableSort_mem_iff]
      simp
    refine ⟨h0.2, ?_, ?_⟩
    · rw [hg, hL]
      simp only [List.headD_cons]
      have hh0 : h0 ∈ score_emotions text lex := (hmem h0).mpr (List.mem_cons_self _ _)
      simpa using hh0
    · intro p hp
      rcases List.mem_cons.mp ((hmem p).mp hp) with rfl | hpr
      · refine ⟨le_refl _, fun _ => ?_⟩
        rw [hg, hL]
        simp only [List.headD_cons]
        exact le_refl _
      · have hfalse := hsorted.1 p hpr
        simp only [pairLt, decide_eq_false_iff_not, not_or, not_and] at hfalse
        obtain ⟨hf1, hf2⟩ := hfalse
        constructor
        · omega
        · intro hps
          rw [hg, hL]
          simp only [List.headD_cons]
          rw [String.le_iff_toList_le]
          exact le_of_not_lt (hf2 (by omega))

/-- Witness for C3's amended theorem: the tie `joie = calme = 1` on
`"soleil nuit"` resolves to the lexicographically smaller `"calme"`. -/
theorem guess_emotion_argmax_witness :
    ∃ s : ℤ, (guess_emotion "soleil nuit" DEFAULT_LEXICON "calme", s)
        ∈ score_emotions "soleil nuit" DEFAULT_LEXICON
      ∧ ∀ p ∈ score_emotions "soleil nuit" DEFAULT_LEXICON,
          p.2 ≤ s ∧ (p.2 = s → guess_emotion "soleil nuit" DEFAULT_LEXICON "calme" ≤ p.1) :=
  guess_emotion_argmax "soleil nuit" DEFAULT_LEXICON "calme" (by decide)

/-- C3 counterexample: on `"soleil nuit"` the two labels tie at probability
1/2, yet the top-2 selection of `analyze_text_emotion` returns them in
lexicon insertion order (`["joie", "calme"]` although `"calme" < "joie"`),
and reversing the lexicon's insertion order flips the output — ties are
not broken lexicographically and the result is not independent of map
iteration order. -/
theorem topk_tie_counterexample :
    (analyze_text_emotion expE "soleil nuit" lexJC).labels = ["joie", "calme"]
    ∧ (analyze_text_emotion expE "soleil nuit" lexJC).probs
        = [("joie", 1 / 2), ("calme", 1 / 2)]
    ∧ ("calme" : String) < "joie"
    ∧ (analyze_text_emotion expE "soleil nuit" lexCJ).labels = ["calme", "joie"] := by
  refine ⟨?_, ?_, ?_, ?_⟩
  · have hsc : score_emotions "soleil nuit" lexJC = [("joie", 1), ("calme", 1)] := by decide
    rw [analyze_labels, analyze_probs, hsc]
    norm_num [softmax_dict, stableSort, insertStable, probLt, expE_zero]
  · have hsc : score_emotions "soleil nuit" lexJC = [("joie", 1), ("calme", 1)] := by decide
    rw [analyze_probs, hsc]
    norm_num [softmax_dict, expE_zero]
  · rw [String.lt_iff_toList_lt]
    decide
  · have hsc : score_emotions "soleil nuit" lexCJ = [("calme", 1), ("joie", 1)] := by decide
    rw [analyze_labels, analyze_probs, hsc]
    norm_num [softmax_dict, stableSort, insertStable, probLt, expE_zero]

/-! ## Lemmas: blank-text behaviour and lexicon loading -/

/-- `softmax_dict` on the substituted unit score dict. -/
theorem softmax_singleton (E : ℤ → ℚ) (hE : 0 < E 0) :
    softmax_dict E [("calme", (1 : ℤ))] = [("calme", 1)] := by
  rw [softmax_dict]
  simp only [List.foldl_nil, List.map_cons, List.map_nil, List.sum_cons, List.sum_nil,
    add_zero, sub_self]
  rw [div_self (ne_of_gt hE)]

/-- On a text whose normalization is empty, no lexicon word with at least
one token can match, so the score dict is empty. -/
theorem score_blank (text : String) (lex : Lexicon)
    (h : normalizeChars text.toList = [])
    (hlex : ∀ e ∈ lex, ∀ q ∈ e.2, wordsOf q.1 ≠ []) :
    score_emotions text lex = [] := by
  simp only [score_emotions]
  rw [List.filterMap_eq_nil_iff]
  intro a ha
  have hocc : ∀ wp ∈ a.2, occursWord wp.1 (normalize text) = false := by
    intro wp hwp
    rw [occursWord]
    have hw : wordsOf wp.1 ≠ [] := hlex a ha wp hwp
    have ht : wordsOf (normalize text) = [] := by
      rw [normalize, h]
      rfl
    rw [ht]
    cases hp : wordsOf wp.1 with
    | nil => exact absurd hp hw
    | cons x xs => rfl
  have hfil : a.2.filter (fun wp => occursWord wp.1 (normalize text)) = [] := by
    rw [List.filter_eq_nil_iff]
    intro wp hwp
    rw [hocc wp hwp]
    simp
  simp only [hfil]
  rfl

/-- C5 (amended): blank or empty text is not rejected — `analyze_text_emotion`
returns the complete default result: empty score vector substituted by
`{"calme": 1}`, distribution 100% on `"calme"`, label list `["calme"]`.
(Input-presence validation lives only in the GUI/REPL callers, which skip
the analysis call for empty input.) -/
theorem blank_text_default (E : ℤ → ℚ) (hE : 0 < E 0) (text : String) (lex : Lexicon)
    (h : normalizeChars text.toList = [])
    (hlex : ∀ e ∈ lex, ∀ q ∈ e.2, wordsOf q.1 ≠ []) :
    score_emotions text lex = []
    ∧ (analyze_text_emotion E text lex).probs = [("calme", 1)]
    ∧ (analyze_text_emotion E text lex).labels = ["calme"] := by
  have hsc := score_blank text lex h hlex
  have hie : (score_emotions text lex).isEmpty = true := by
    rw [hsc]
    rfl
  have hprobs : (analyze_text_emotion E text lex).probs = [("calme", 1)] := by
    rw [analyze_probs, if_pos hie, softmax_singleton E hE]
  refine ⟨hsc, hprobs, ?_⟩
  rw [analyze_labels, hprobs]
  rfl

/-- Witness for C5's amended theorem on a whitespace-only input. -/
theorem blank_text_default_witness :
    score_emotions " " DEFAULT_LEXICON = []
    ∧ (analyze_text_emotion expE " " DEFAULT_LEXICON).probs = [("calme", 1)]
    ∧ (analyze_text_emotion expE " " DEFAULT_LEXICON).labels = ["calme"] :=
  blank_text_default expE (expE_pos 0) " " DEFAULT_LEXICON (by decide) (by decide)

/-- C5 counterexample: for the blank input `" "` the analysis returns a
complete, well-formed result — no `ValidationError` is raised and a full
(not partial, not absent) result is produced, contradicting the claim that
blank text surfaces an error and produces no result. -/
theorem blank_text_result_counterexample :
    (analyze_text_emotion expE " " DEFAULT_LEXICON).probs = [("calme", 1)]
    ∧ (analyze_text_emotion expE " " DEFAULT_LEXICON).labels = ["calme"]
    ∧ (analyze_text_emotion expE " " DEFAULT_LEXICON).raw_scores = [("calme", 1)] := by
  have hsc : score_emotions " " DEFAULT_LEXICON = [] := by decide
  have hie : (score_emotions " " DEFAULT_LEXICON).isEmpty = true := by
    rw [hsc]
    rfl
  have hprobs : (analyze_text_emotion expE " " DEFAULT_LEXICON).probs = [("calme", 1)] := by
    rw [analyze_probs, if_pos hie, softmax_singleton expE (expE_pos 0)]
  refine ⟨hprobs, ?_, ?_⟩
  · rw [analyze_labels, hprobs]
    rfl
  · rw [analyze_raw, if_pos hie]

/-- C6 (amended): a lexicon-source parse failure is not caught:
`load_lexicon` propagates the `json.load` error to its caller, and the
built-in default lexicon is returned only when no path is supplied (or the
path is empty or does not exist). -/
theorem load_error_propagates (exq : String → Bool)
    (readJson : String → Except String Lexicon) (p e : String)
    (h1 : p ≠ "") (h2 : exq p = true) (h3 : readJson p = Except.error e) :
    load_lexicon exq readJson (some p) = Except.error e
    ∧ load_lexicon exq readJson none = Except.ok DEFAULT_LEXICON := by
  constructor
  · simp only [load_lexicon]
    rw [if_pos (by simp [h1, h2]), h3]
  · rfl

/-- Witness for C6's amended theorem with a concrete failing source. -/
theorem load_error_propagates_witness :
    load_lexicon (fun _ => true) (fun _ => Except.error "Expecting value")
      (some "lexique.json") = Except.error "Expecting value"
    ∧ load_lexicon (fun _ => true) (fun _ => Except.error "Expecting value") none
      = Except.ok DEFAULT_LEXICON :=
  load_error_propagates (fun _ => true) (fun _ => Except.error "Expecting value")
    "lexique.json" "Expecting value" (by decide) rfl rfl

/-- C6 counterexample: with an existing path whose content fails to parse,
`load_lexicon` returns the raised decode error — it does not recover by
falling back to the built-in default lexicon. -/
theorem load_error_counterexample :
    load_lexicon (fun _ => true) (fun _ => Except.error "JSONDecodeError")
      (some "lexique.json") = Except.error "JSONDecodeError"
    ∧ load_lexicon (fun _ => true) (fun _ => Except.error "JSONDecodeError")
      (some "lexique.json") ≠ Except.ok DEFAULT_LEXICON := by
  have he : load_lexicon (fun _ => true) (fun _ => Except.error "JSONDecodeError")
      (some "lexique.json") = Except.error "JSONDecodeError" := by
    simp only [load_lexicon]
    rw [if_pos (by decide)]
  refine ⟨he, ?_⟩
  rw [he]
  intro hc
  exact Except.noConfusion hc

end GenMusIA
